import Mathlib

/-!
Verification development for the insurance-chatbot repository.

Python text values are embedded as `List Char`; Python `str` operations
(`split`, `strip`, `join`, `in`, regex substitutions used by the code) are
modelled by executable Lean functions below.  Machine-level JSON values that
may appear in a parsed response dict are modelled by `PyVal`; a dict is an
association list.  Fallible Python code (attribute errors on non-string
explanation values) is modelled with `Except`.
-/

/-- Python str.strip(): drop leading and trailing whitespace. -/
def pyStrip (l : List Char) : List Char :=
  ((l.dropWhile (fun c => c.isWhitespace)).reverse.dropWhile (fun c => c.isWhitespace)).reverse

/-- Python str.split('\n'): split at every newline, keeping empty pieces. -/
def splitNl (s : List Char) : List (List Char) := s.splitOn '\n'

/-- Python str.split() with no argument: split at every whitespace
character and drop the empty pieces. -/
def pyWords (s : List Char) : List (List Char) :=
  (s.splitOnP (fun c => c.isWhitespace)).filter (fun w => w ≠ [])

/-- Python '\n'.join(pieces). -/
def joinNl : List (List Char) → List Char
  | [] => []
  | [l] => l
  | l :: l2 :: ls => l ++ '\n' :: joinNl (l2 :: ls)

/-- Python ' '.join(pieces). -/
def joinSpace : List (List Char) → List Char
  | [] => []
  | [w] => w
  | w :: w2 :: ws => w ++ ' ' :: joinSpace (w2 :: ws)

/-- Model of re.sub(r' +', ' ', text): collapse every maximal run of
spaces to a single space. -/
def collapseSpaces : List Char → List Char
  | [] => []
  | c :: rest =>
    if c = ' ' then ' ' :: collapseSpaces (rest.dropWhile (fun d => d = ' '))
    else c :: collapseSpaces rest
termination_by s => s.length
decreasing_by
  · have h1 : (rest.dropWhile (fun d => d = ' ')).length ≤ rest.length :=
      (List.dropWhile_suffix _).sublist.length_le
    simp only [List.length_cons]
    omega
  · simp

/-- Index of the last newline in a list, if any. -/
def lastNlIdx : List Char → Option Nat
  | [] => none
  | c :: rest =>
    match lastNlIdx rest with
    | some k => some (k + 1)
    | none => if c = '\n' then some 0 else none

/-- Attempt, at a position directly after a newline, the greedy tail of a
re.sub(r'\n\s*\n') match: the backslash-s-star part consumes the longest
whitespace prefix that is followed by a newline, i.e. the match ends at the
last newline inside the maximal whitespace prefix.  Returns the remainder
of the input after the match, or none if no match starts here. -/
def blankMatch (s : List Char) : Option (List Char) :=
  match lastNlIdx (s.takeWhile (fun c => c.isWhitespace)) with
  | some k => some (s.drop (k + 1))
  | none => none

/-- Model of re.sub(r'\n\s*\n', '\n\n', text): left-to-right scan; at each
newline try the greedy match, replace it by two newlines and continue after
the match; characters that start no match are copied. -/
def collapseBlank : List Char → List Char
  | [] => []
  | c :: rest =>
    if c = '\n' then
      match h : blankMatch rest with
      | some rest2 => '\n' :: '\n' :: collapseBlank rest2
      | none => '\n' :: collapseBlank rest
    else c :: collapseBlank rest
termination_by s => s.length
decreasing_by
  · have key : ∀ (w : List Char) (k : Nat), lastNlIdx w = some k → k < w.length := by
      intro w
      induction w with
      | nil => intro k hk; simp [lastNlIdx] at hk
      | cons c2 r2 ih =>
        intro k hk
        simp only [lastNlIdx] at hk
        simp only [List.length_cons]
        rcases h2 : lastNlIdx r2 with _ | k2
        · rw [h2] at hk
          by_cases hc : c2 = '\n'
          · simp [hc] at hk; omega
          · simp [hc] at hk
        · rw [h2] at hk
          have := ih k2 h2
          simp at hk
          omega
    unfold blankMatch at h
    rcases h2 : lastNlIdx (rest.takeWhile (fun c => c.isWhitespace)) with _ | k
    · rw [h2] at h; simp at h
    · rw [h2] at h
      simp only [Option.some.injEq] at h
      have hk := key _ _ h2
      have hw : (rest.takeWhile (fun c => c.isWhitespace)).length ≤ rest.length :=
        (List.takeWhile_prefix _).sublist.length_le
      subst h
      simp only [List.length_cons, List.length_drop]
      omega
  · simp
  · simp

/-- Python's substring containment test (pat in s). -/
def hasSub (pat : List Char) : List Char → Bool
  | [] => pat.isPrefixOf ([] : List Char)
  | c :: rest => pat.isPrefixOf (c :: rest) || hasSub pat rest

/-- The section keywords from InsuranceAnalyzer.clean_and_structure_text. -/
def sections : List (List Char) :=
  ["policy summary", "coverage", "exclusions", "deductible",
   "limits", "conditions", "definitions", "schedule", "listed events"].map String.toList

/-- Test whether a line might be a section header:
any(section in line.lower() for section in sections). -/
def isSection (line : List Char) : Bool :=
  sections.any (fun sec => hasSub sec (line.map Char.toLower))

/-- The f-string "=== {line} ===" without its leading newline. -/
def wrap (line : List Char) : List Char :=
  ['=', '=', '=', ' '] ++ line ++ [' ', '=', '=', '=']

/-- One entry of the structured_lines list: section headers are wrapped in
markers preceded by a newline, other lines are kept unchanged. -/
def markLine (line : List Char) : List Char :=
  if isSection line then '\n' :: wrap line else line

/-- The stripped, non-empty lines the structurer iterates over after the
two whitespace substitutions. -/
def coreLines (text : List Char) : List (List Char) :=
  ((splitNl (collapseSpaces (collapseBlank text))).map pyStrip).filter (fun l => l ≠ [])

/-- InsuranceAnalyzer.clean_and_structure_text. -/
def clean_and_structure_text (text : List Char) : List Char :=
  joinNl ((coreLines text).map markLine)

/-- A list of characters containing no newline. -/
def noNl (l : List Char) : Prop := ∀ c ∈ l, c ≠ '\n'

/-- The first character, when present, is not whitespace. -/
def headNoWs (l : List Char) : Prop := ∀ c ∈ l.head?, c.isWhitespace = false

/-- The last character, when present, is not whitespace. -/
def lastNoWs (l : List Char) : Prop := ∀ c ∈ l.getLast?, c.isWhitespace = false

/-- No two adjacent characters are both spaces. -/
def noDbl (l : List Char) : Prop := l.Chain' (fun a b => ¬(a = ' ' ∧ b = ' '))

/-- Shape of every line the structurer iterates over: non-empty, free of
newlines, stripped at both ends, and without double spaces. -/
def cleanLine (l : List Char) : Prop :=
  l ≠ [] ∧ noNl l ∧ headNoWs l ∧ lastNoWs l ∧ noDbl l

/-- The likelihood table from InsuranceAnalyzer.__init__ (dict insertion
order is preserved in Python, so the list order is the iteration order). -/
def likelihood_ranges : List (String × Int × Int) :=
  [("Highly Unlikely", 0, 20),
   ("Unlikely", 21, 50),
   ("Somewhat Likely", 51, 65),
   ("Likely", 66, 80),
   ("Highly Likely", 81, 100)]

/-- The band-assignment loop: likelihood_ranking starts at the default
"Somewhat Likely" and the first range containing the score wins (break). -/
def bandOfAux : List (String × Int × Int) → Int → String
  | [], _ => "Somewhat Likely"
  | (name, lo, hi) :: rest, p => if lo ≤ p ∧ p ≤ hi then name else bandOfAux rest p

/-- Band assigned to a score by validate_response_format. -/
def bandOf (p : Int) : String := bandOfAux likelihood_ranges p

/-- The fixed padding vocabulary used when the explanation is short. -/
def padding_words : List (List Char) :=
  ["based", "on", "policy", "terms", "and", "conditions", "provided", "in",
   "documentation"].map String.toList

/-- The while loop: while len(words) < 40 and padding_words, append
padding_words.pop(0). -/
def padLoop (words : List (List Char)) : List (List Char) → List (List Char)
  | [] => words
  | p :: ps => if words.length < 40 then padLoop (words ++ [p]) ps else words

/-- Default explanation used when the parsed dict has no explanation field. -/
def default_explanation : List Char :=
  ("Coverage assessment unavailable due to insufficient information in " ++
   "provided documentation.").toList

/-- The explanation-length block of validate_response_format: split into
words; over 40 words means truncate; under 40 means pad from the vocabulary
and truncate to 40; exactly 40 words is returned unchanged. -/
def normalizeExplanation (explanation : List Char) : List Char :=
  let words := pyWords explanation
  if words.length ≠ 40 then
    if words.length > 40 then joinSpace (words.take 40)
    else joinSpace ((padLoop words padding_words).take 40)
  else explanation

/-- A JSON-derived Python value found in a parsed response dict. -/
inductive PyVal where
  | int (i : Int)
  | str (s : List Char)
  | other
deriving DecidableEq

/-- A parsed response dict: association list from keys to values. -/
abbrev PyDict := List (String × PyVal)

/-- The validated response dict (it always has exactly these three keys). -/
structure ValidatedResponse where
  percentage_score : Int
  likelihood_ranking : String
  explanation : List Char
deriving DecidableEq

/-- The score-clamping step of validate_response_format: percentage =
result.get("percentage_score", 50), reset to 50 unless it is an int
within 0..100 (the default 50 already is). -/
def validScore (result : PyDict) : Int :=
  match result.lookup "percentage_score" with
  | some (PyVal.int i) => if i < 0 ∨ i > 100 then 50 else i
  | some _ => 50
  | none => 50

/-- InsuranceAnalyzer.validate_response_format.  A non-string explanation
value makes the Python code raise (str.split on a non-str), modelled as
Except.error; that exception is caught by analyze_coverage's handler. -/
def validate_response_format (result : PyDict) : Except Unit ValidatedResponse :=
  let percentage : Int := validScore result
  let ranking : String := bandOfAux likelihood_ranges percentage
  match result.lookup "explanation" with
  | none =>
      Except.ok { percentage_score := percentage, likelihood_ranking := ranking,
                  explanation := normalizeExplanation default_explanation }
  | some (PyVal.str s) =>
      Except.ok { percentage_score := percentage, likelihood_ranking := ranking,
                  explanation := normalizeExplanation s }
  | some _ => Except.error ()

/-- Canned explanation of _get_fallback_response. -/
def fallback_explanation : List Char :=
  ("Unable to parse model response. Coverage assessment requires manual " ++
   "review of policy documentation for accurate determination of " ++
   "applicable terms and conditions.").toList

/-- InsuranceAnalyzer._get_fallback_response (used when JSON parsing finds
no brace-delimited substring). -/
def get_fallback_response : PyDict :=
  [("percentage_score", PyVal.int 50),
   ("likelihood_ranking", PyVal.str "Somewhat Likely".toList),
   ("explanation", PyVal.str fallback_explanation)]

/-- Canned explanation of _get_error_fallback_response. -/
def error_fallback_explanation : List Char :=
  ("Technical error occurred during analysis. Coverage determination " ++
   "requires manual review of policy terms conditions exclusions and " ++
   "applicable circumstances for accurate assessment.").toList

/-- InsuranceAnalyzer._get_error_fallback_response, returned directly to the
caller (its dict has exactly the three response keys). -/
def get_error_fallback_response : ValidatedResponse :=
  { percentage_score := 50,
    likelihood_ranking := "Somewhat Likely",
    explanation := error_fallback_explanation }

/-- Outcome of the JSON-recovery step applied to the raw completion text:
a strict parse, a parse of the brace-delimited substring, no such substring
at all, or a substring that itself fails to parse (which re-raises inside
the handler). -/
inductive ParsedOutcome where
  | strict (d : PyDict)
  | extracted (d : PyDict)
  | noBraces
  | badSubstring
deriving DecidableEq

/-- Outcome of the completion invocation: a raw text with its parse
outcome, or any transport/provider error. -/
inductive CompletionResult where
  | ok (p : ParsedOutcome)
  | err
deriving DecidableEq

/-- Control flow of InsuranceAnalyzer.analyze_coverage after the prompt is
sent: any exception inside the try block (invocation failure, a re-raised
JSONDecodeError from the substring parse, or a validation crash) yields the
error fallback; a missing JSON substring yields _get_fallback_response,
which is then passed through validate_response_format like any parse. -/
def analyze_coverage : CompletionResult → ValidatedResponse
  | CompletionResult.err => get_error_fallback_response
  | CompletionResult.ok p =>
    match p with
    | ParsedOutcome.badSubstring => get_error_fallback_response
    | ParsedOutcome.strict d =>
        match validate_response_format d with
        | Except.ok r => r
        | Except.error _ => get_error_fallback_response
    | ParsedOutcome.extracted d =>
        match validate_response_format d with
        | Except.ok r => r
        | Except.error _ => get_error_fallback_response
    | ParsedOutcome.noBraces =>
        match validate_response_format get_fallback_response with
        | Except.ok r => r
        | Except.error _ => get_error_fallback_response

/-- Outcome of the primary (PyMuPDF) extraction attempt. -/
inductive PrimaryOutcome where
  | ok (text : List Char)
  | raises
deriving DecidableEq

/-- Which extractor's result PDFExtractor.extract_text returns. -/
inductive ExtractChoice where
  | primary (text : List Char)
  | fallback
deriving DecidableEq

/-- PDFExtractor.extract_text: the primary result is kept only when it is
truthy and len(text.strip()) > 50; otherwise (including any exception) the
PyPDF2 fallback is used. -/
def extract_text : PrimaryOutcome → ExtractChoice
  | PrimaryOutcome.ok text =>
      if text ≠ [] ∧ 50 < (pyStrip text).length then ExtractChoice.primary text
      else ExtractChoice.fallback
  | PrimaryOutcome.raises => ExtractChoice.fallback

/-- Multipart form data of the /analyze-coverage endpoint. -/
structure CoverageRequest where
  policy_content_type : String
  schedule_content_type : String
  insurance_type : List Char
  question : List Char

/-- Side-effecting pipeline steps of the endpoint body. -/
inductive PipelineEvent where
  | readPdfBytes
  | extractText
  | analyze
deriving DecidableEq

/-- What the endpoint does with a request. -/
inductive EndpointOutcome where
  | clientError (status : Nat) (detail : String)
  | pipelineRun
deriving DecidableEq

/-- allowed_types in the endpoint body. -/
def allowed_types : List String := ["application/pdf"]

/-- The validation prologue of the analyze_coverage endpoint, together with
the ordered list of pipeline effects it triggers: content-type checks and
the empty-question check raise HTTP 400 before any file is read; otherwise
the try block reads both files, extracts both texts and runs the analysis. -/
def analyze_coverage_endpoint (req : CoverageRequest) :
    List PipelineEvent × EndpointOutcome :=
  if ¬ req.policy_content_type ∈ allowed_types then
    ([], EndpointOutcome.clientError 400 "Policy Disclosure must be a PDF file")
  else if ¬ req.schedule_content_type ∈ allowed_types then
    ([], EndpointOutcome.clientError 400 "Schedule of Coverage must be a PDF file")
  else if pyStrip req.question = [] then
    ([], EndpointOutcome.clientError 400 "Question cannot be empty")
  else
    ([PipelineEvent.readPdfBytes, PipelineEvent.readPdfBytes,
      PipelineEvent.extractText, PipelineEvent.extractText, PipelineEvent.analyze],
     EndpointOutcome.pipelineRun)

/-- A response satisfies the band-table invariant when its band is an entry
of the table whose range contains its score. -/
def bandMatches (r : ValidatedResponse) : Prop :=
  ∃ e ∈ likelihood_ranges,
    e.1 = r.likelihood_ranking ∧ e.2.1 ≤ r.percentage_score ∧ r.percentage_score ≤ e.2.2

instance (r : ValidatedResponse) : Decidable (bandMatches r) := by
  unfold bandMatches; infer_instance

/-- Concrete primary-extraction result witnessing the gap between counting
non-whitespace characters and the length of the stripped text: 49
non-whitespace characters but 52 characters once stripped. -/
def cexPrimaryText : List Char :=
  List.replicate 25 'a' ++ List.replicate 3 ' ' ++ List.replicate 24 'b'

/-- A concrete parsed dict whose score field is a string (hence invalid). -/
def exampleInvalidScoreDict : PyDict := [("percentage_score", PyVal.str "97".toList)]

/-- A concrete parsed dict with a valid score and a 40-word explanation. -/
def exampleValidDict : PyDict :=
  [("percentage_score", PyVal.int 77),
   ("explanation", PyVal.str (joinSpace (List.replicate 40 ['a'])))]

/-- A concrete parsed dict carrying an inconsistent likelihood_ranking. -/
def exampleRankedDict : PyDict :=
  [("percentage_score", PyVal.int 10),
   ("likelihood_ranking", PyVal.str "Highly Likely".toList)]

/-- The same dict without the likelihood_ranking key. -/
def exampleUnrankedDict : PyDict := [("percentage_score", PyVal.int 10)]

/-- A concrete explanation text of exactly 40 one-letter words. -/
def exampleFortyWordText : List Char := joinSpace (List.replicate 40 ['a'])

/-- A concrete primary-extraction result of 51 non-whitespace characters. -/
def examplePrimaryText : List Char := List.replicate 51 'a'

/-- A concrete request with a whitespace-only question. -/
def exampleBlankQuestionRequest : CoverageRequest :=
  { policy_content_type := "application/pdf",
    schedule_content_type := "application/pdf",
    insurance_type := "home".toList,
    question := [' ', '\t', ' '] }

/-! ## Helper lemmas about the validator and the band table -/

theorem validScore_range (d : PyDict) : 0 ≤ validScore d ∧ validScore d ≤ 100 := by
  rcases hl : d.lookup "percentage_score" with _ | v
  · simp [validScore, hl]
  · cases v with
    | int i =>
      by_cases h : i < 0 ∨ i > 100
      · simp [validScore, hl, h]
      · simp only [validScore, hl, if_neg h]
        omega
    | str s => simp [validScore, hl]
    | other => simp [validScore, hl]

theorem validScore_invalid (d : PyDict)
    (h : match d.lookup "percentage_score" with
         | some (PyVal.int i) => i < 0 ∨ i > 100
         | some _ => True
         | none => True) :
    validScore d = 50 := by
  rcases hl : d.lookup "percentage_score" with _ | v
  · simp [validScore, hl]
  · cases v with
    | int i =>
      rw [hl] at h
      simp only [validScore, hl, if_pos h]
    | str s => simp [validScore, hl]
    | other => simp [validScore, hl]

theorem validate_score_spec (d : PyDict) (r : ValidatedResponse)
    (h : validate_response_format d = Except.ok r) :
    r.percentage_score = validScore d ∧ r.likelihood_ranking = bandOf (validScore d) := by
  unfold validate_response_format at h
  rcases he : d.lookup "explanation" with _ | v
  · rw [he] at h
    simp only [Except.ok.injEq] at h
    subst h
    exact ⟨rfl, rfl⟩
  · rw [he] at h
    cases v with
    | int i => simp at h
    | str s =>
      simp only [Except.ok.injEq] at h
      subst h
      exact ⟨rfl, rfl⟩
    | other => simp at h

theorem lookup_skip (k k' : String) (v : PyVal) (d : PyDict) (h : (k == k') = false) :
    List.lookup k ((k', v) :: d) = List.lookup k d := by
  simp [List.lookup, h]

theorem band_table_nat :
    ∀ n : Nat, n < 101 → ∀ e ∈ likelihood_ranges,
      (e.2.1 ≤ (n : Int) ∧ (n : Int) ≤ e.2.2 ↔ bandOf (n : Int) = e.1) := by
  decide

theorem band_table_int :
    ∀ s : Int, 0 ≤ s → s ≤ 100 → ∀ e ∈ likelihood_ranges,
      (e.2.1 ≤ s ∧ s ≤ e.2.2 ↔ bandOf s = e.1) := by
  intro s h0 h1 e he
  have hs : ((s.toNat : Nat) : Int) = s := Int.toNat_of_nonneg h0
  rw [← hs]
  exact band_table_nat s.toNat (by omega) e he

theorem bandOf_mem_nat :
    ∀ n : Nat, n < 101 →
      ∃ e ∈ likelihood_ranges,
        e.1 = bandOf (n : Int) ∧ e.2.1 ≤ (n : Int) ∧ (n : Int) ≤ e.2.2 := by
  decide

theorem bandOf_mem :
    ∀ s : Int, 0 ≤ s → s ≤ 100 →
      ∃ e ∈ likelihood_ranges, e.1 = bandOf s ∧ e.2.1 ≤ s ∧ s ≤ e.2.2 := by
  intro s h0 h1
  have hs : ((s.toNat : Nat) : Int) = s := Int.toNat_of_nonneg h0
  rw [← hs]
  exact bandOf_mem_nat s.toNat (by omega)

/-! ## C1 -/

/-- C1: for every integer score s in 0..100, the band assigned by
validate_response_format is the band of the unique table entry whose range
contains s (checked in table order), the boundary values 20, 21, 50, 51,
65, 66, 80 and 81 resolving as listed; and a parsed dict carrying such a
score validates to that score and that band. -/
theorem c1_band_table :
    (∀ s : Int, 0 ≤ s → s ≤ 100 →
      ∀ e ∈ likelihood_ranges, (e.2.1 ≤ s ∧ s ≤ e.2.2 ↔ bandOf s = e.1))
    ∧ (∀ (d : PyDict) (s : Int) (r : ValidatedResponse),
        d.lookup "percentage_score" = some (PyVal.int s) → 0 ≤ s → s ≤ 100 →
        validate_response_format d = Except.ok r →
        r.percentage_score = s ∧ r.likelihood_ranking = bandOf s)
    ∧ bandOf 20 = "Highly Unlikely" ∧ bandOf 21 = "Unlikely"
    ∧ bandOf 50 = "Unlikely" ∧ bandOf 51 = "Somewhat Likely"
    ∧ bandOf 65 = "Somewhat Likely" ∧ bandOf 66 = "Likely"
    ∧ bandOf 80 = "Likely" ∧ bandOf 81 = "Highly Likely" := by
  refine ⟨band_table_int, ?_, rfl, rfl, rfl, rfl, rfl, rfl, rfl, rfl⟩
  intro d s r hl h0 h1 hv
  have hs := validate_score_spec d r hv
  have hval : validScore d = s := by
    simp only [validScore, hl]
    rw [if_neg (by omega)]
  rw [hval] at hs
  exact ⟨hs.1, hs.2⟩

/-- Witness for C1 at score 37 and the table entry for "Unlikely". -/
theorem c1_band_table_witness :
    ((21 : Int) ≤ 37 ∧ (37 : Int) ≤ 50 ↔ bandOf 37 = "Unlikely") :=
  c1_band_table.1 37 (by decide) (by decide) ("Unlikely", 21, 50) (by decide)

/-! ## C3 -/

/-- C3: parsed dicts whose score field is absent, not an integer, or
outside 0..100 validate to score 50 and band "Unlikely"; every validated
output score is an integer in 0..100. -/
theorem c3_invalid_score_defaults :
    (∀ (d : PyDict) (r : ValidatedResponse), validate_response_format d = Except.ok r →
      0 ≤ r.percentage_score ∧ r.percentage_score ≤ 100)
    ∧ (∀ (d : PyDict) (r : ValidatedResponse), validate_response_format d = Except.ok r →
        (match d.lookup "percentage_score" with
         | some (PyVal.int i) => i < 0 ∨ i > 100
         | some _ => True
         | none => True) →
        r.percentage_score = 50 ∧ r.likelihood_ranking = "Unlikely") := by
  constructor
  · intro d r h
    have hs := validate_score_spec d r h
    rw [hs.1]
    exact validScore_range d
  · intro d r h hb
    have hs := validate_score_spec d r h
    have h50 := validScore_invalid d hb
    rw [h50] at hs
    exact ⟨hs.1, hs.2⟩

/-- Witness for C3 at a dict whose score field is the string "97". -/
theorem c3_invalid_score_defaults_witness :
    validate_response_format exampleInvalidScoreDict =
      Except.ok { percentage_score := 50, likelihood_ranking := "Unlikely",
                  explanation := normalizeExplanation default_explanation }
    ∧ (50 : Int) = 50 ∧ ("Unlikely" : String) = "Unlikely" :=
  ⟨rfl,
   (c3_invalid_score_defaults.2 exampleInvalidScoreDict
     { percentage_score := 50, likelihood_ranking := "Unlikely",
       explanation := normalizeExplanation default_explanation } rfl trivial).1 ▸ rfl,
   (c3_invalid_score_defaults.2 exampleInvalidScoreDict
     { percentage_score := 50, likelihood_ranking := "Unlikely",
       explanation := normalizeExplanation default_explanation } rfl trivial).2 ▸ rfl⟩

/-! ## C6 -/

/-- C6: every invocation error makes analyze_coverage return the fixed
error-fallback result — score 50, band "Somewhat Likely", its own canned
explanation, distinct from the parse-failure fallback's sentence. -/
theorem c6_invocation_error_fallback :
    analyze_coverage CompletionResult.err = get_error_fallback_response
    ∧ get_error_fallback_response.percentage_score = 50
    ∧ get_error_fallback_response.likelihood_ranking = "Somewhat Likely"
    ∧ get_error_fallback_response.explanation = error_fallback_explanation
    ∧ error_fallback_explanation ≠ fallback_explanation := by
  refine ⟨rfl, rfl, rfl, rfl, ?_⟩
  decide

/-! ## C5 -/

/-- C5 counterexample: when no brace-delimited substring exists, the
returned result does not match the claim — its band is "Unlikely", not
"Somewhat Likely", and its explanation is not the canned sentence as-is. -/
theorem c5_counterexample :
    (analyze_coverage (CompletionResult.ok ParsedOutcome.noBraces)).likelihood_ranking
      = "Unlikely"
    ∧ (analyze_coverage (CompletionResult.ok ParsedOutcome.noBraces)).likelihood_ranking
      ≠ "Somewhat Likely"
    ∧ (analyze_coverage (CompletionResult.ok ParsedOutcome.noBraces)).explanation
      ≠ fallback_explanation := by
  refine ⟨rfl, ?_, ?_⟩ <;> decide

/-- C5 amended: on a ParseFailure with no brace-delimited substring the
pipeline passes _get_fallback_response through the validator, so the result
has score 50, band "Unlikely" (recomputed from 50), and the canned sentence
re-normalized by padding (30 words); when a brace-delimited substring exists
but fails to parse, the error fallback is returned instead. -/
theorem c5_parse_fallback_validated :
    analyze_coverage (CompletionResult.ok ParsedOutcome.noBraces) =
      { percentage_score := 50, likelihood_ranking := "Unlikely",
        explanation := normalizeExplanation fallback_explanation }
    ∧ (pyWords (normalizeExplanation fallback_explanation)).length = 30
    ∧ normalizeExplanation fallback_explanation ≠ fallback_explanation
    ∧ analyze_coverage (CompletionResult.ok ParsedOutcome.badSubstring)
      = get_error_fallback_response := by
  refine ⟨rfl, ?_, ?_, rfl⟩ <;> decide

/-! ## C4 -/

/-- C4 counterexample: the error-fallback result the pipeline returns on an
invocation error has score 50 and band "Somewhat Likely", and no table
entry for "Somewhat Likely" contains 50 — the invariant fails there. -/
theorem c4_counterexample :
    analyze_coverage CompletionResult.err = get_error_fallback_response
    ∧ ¬ bandMatches get_error_fallback_response := by
  refine ⟨rfl, ?_⟩
  decide

/-- C4 amended: every result produced by validate_response_format — hence
every non-error-path result, including the validated parse-failure
fallback — satisfies the band invariant; the error-fallback result returned
on invocation errors has band "Somewhat Likely" with score 50 and violates
it. -/
theorem c4_band_invariant :
    (∀ (d : PyDict) (r : ValidatedResponse),
      validate_response_format d = Except.ok r → bandMatches r)
    ∧ bandMatches (analyze_coverage (CompletionResult.ok ParsedOutcome.noBraces))
    ∧ ¬ bandMatches (analyze_coverage CompletionResult.err) := by
  refine ⟨?_, by decide, by decide⟩
  intro d r h
  have hs := validate_score_spec d r h
  have hr := validScore_range d
  obtain ⟨e, he, h1, h2⟩ := bandOf_mem (validScore d) hr.1 hr.2
  exact ⟨e, he, by rw [hs.2, h1], by rw [hs.1]; exact h2.1, by rw [hs.1]; exact h2.2⟩

/-- Witness for C4 at a dict with score 77 and a 40-word explanation. -/
theorem c4_band_invariant_witness :
    bandMatches { percentage_score := 77, likelihood_ranking := "Likely",
                  explanation := exampleFortyWordText } :=
  c4_band_invariant.1 exampleValidDict
    { percentage_score := 77, likelihood_ranking := "Likely",
      explanation := exampleFortyWordText } rfl

/-! ## C7 -/

/-- C7 counterexample: a primary result with 49 non-whitespace characters
(52 characters after stripping) is kept and the fallback is not invoked,
contradicting the claimed fewer-than-50-non-whitespace-characters rule. -/
theorem c7_counterexample :
    (cexPrimaryText.filter (fun c => !c.isWhitespace)).length < 50
    ∧ extract_text (PrimaryOutcome.ok cexPrimaryText)
      = ExtractChoice.primary cexPrimaryText := by
  constructor <;> decide

/-- C7 amended: extract_text uses the fallback extractor if and only if the
primary extraction raises or its result has at most 50 characters after
stripping leading and trailing whitespace; otherwise the primary result is
returned and the fallback is never invoked. -/
theorem c7_fallback_condition :
    extract_text PrimaryOutcome.raises = ExtractChoice.fallback
    ∧ ∀ t : List Char,
        (extract_text (PrimaryOutcome.ok t) = ExtractChoice.fallback
          ↔ (pyStrip t).length ≤ 50)
        ∧ (50 < (pyStrip t).length →
            extract_text (PrimaryOutcome.ok t) = ExtractChoice.primary t) := by
  refine ⟨rfl, ?_⟩
  intro t
  simp only [extract_text]
  by_cases h : 50 < (pyStrip t).length
  · have ht : t ≠ [] := by
      intro he
      rw [he] at h
      simp [pyStrip] at h
    rw [if_pos ⟨ht, h⟩]
    constructor
    · constructor
      · intro hx
        exact absurd hx (by simp)
      · intro hx
        omega
    · intro _
      rfl
  · have : ¬ (t ≠ [] ∧ 50 < (pyStrip t).length) := by
      intro hx
      exact h hx.2
    rw [if_neg this]
    constructor
    · constructor
      · intro _
        omega
      · intro _
        rfl
    · intro hx
      exact absurd hx h

/-- Witness for C7 at a 51-character whitespace-free primary result. -/
theorem c7_fallback_condition_witness :
    extract_text (PrimaryOutcome.ok examplePrimaryText)
      = ExtractChoice.primary examplePrimaryText :=
  (c7_fallback_condition.2 examplePrimaryText).2 (by decide)

/-! ## C9 -/

/-- C9: any request with an empty-after-trimming question or a non-PDF
content type on either file part is rejected with HTTP 400 and triggers no
pipeline effect — no bytes are read and no extraction occurs. -/
theorem c9_reject_before_pipeline :
    ∀ req : CoverageRequest,
      (pyStrip req.question = [] ∨ req.policy_content_type ≠ "application/pdf"
        ∨ req.schedule_content_type ≠ "application/pdf") →
      (analyze_coverage_endpoint req).1 = []
      ∧ ∃ detail, (analyze_coverage_endpoint req).2
          = EndpointOutcome.clientError 400 detail := by
  intro req h
  by_cases h1 : req.policy_content_type = "application/pdf"
  · by_cases h2 : req.schedule_content_type = "application/pdf"
    · by_cases h3 : pyStrip req.question = []
      · simp [analyze_coverage_endpoint, allowed_types, h1, h2, h3]
      · rcases h with hq | hp | hs
        · exact absurd hq h3
        · exact absurd h1 hp
        · exact absurd h2 hs
    · simp [analyze_coverage_endpoint, allowed_types, h1, h2]
  · simp [analyze_coverage_endpoint, allowed_types, h1]

/-- Witness for C9 at a whitespace-only question with PDF content types. -/
theorem c9_reject_before_pipeline_witness :
    (analyze_coverage_endpoint exampleBlankQuestionRequest).1 = []
    ∧ ∃ detail, (analyze_coverage_endpoint exampleBlankQuestionRequest).2
        = EndpointOutcome.clientError 400 detail :=
  c9_reject_before_pipeline exampleBlankQuestionRequest (Or.inl (by decide))

/-! ## C10 -/

/-- C10: the validator's output depends only on the values of the
"percentage_score" and "explanation" fields; a supplied
"likelihood_ranking" field is ignored and the output band is recomputed
from the score alone. -/
theorem c10_two_field_dependence :
    (∀ d1 d2 : PyDict,
      d1.lookup "percentage_score" = d2.lookup "percentage_score" →
      d1.lookup "explanation" = d2.lookup "explanation" →
      validate_response_format d1 = validate_response_format d2)
    ∧ (∀ (d : PyDict) (v : PyVal),
        validate_response_format (("likelihood_ranking", v) :: d)
          = validate_response_format d)
    ∧ (∀ (d : PyDict) (r : ValidatedResponse),
        validate_response_format d = Except.ok r →
        r.likelihood_ranking = bandOf r.percentage_score) := by
  have main : ∀ d1 d2 : PyDict,
      d1.lookup "percentage_score" = d2.lookup "percentage_score" →
      d1.lookup "explanation" = d2.lookup "explanation" →
      validate_response_format d1 = validate_response_format d2 := by
    intro d1 d2 h1 h2
    unfold validate_response_format validScore
    rw [h1, h2]
  refine ⟨main, ?_, ?_⟩
  · intro d v
    exact main _ _ (lookup_skip _ _ _ _ rfl) (lookup_skip _ _ _ _ rfl)
  · intro d r h
    have hs := validate_score_spec d r h
    rw [hs.1]
    exact hs.2

/-- Witness for C10: adding a likelihood_ranking field to a score-10 dict
does not change the validator's output. -/
theorem c10_two_field_dependence_witness :
    validate_response_format exampleRankedDict
      = validate_response_format exampleUnrankedDict :=
  c10_two_field_dependence.1 exampleRankedDict exampleUnrankedDict (by decide) (by decide)

/-! ## C2: word-splitting lemmas -/

theorem splitOnP_chunks_clean {α : Type} (p : α → Bool) :
    ∀ s : List α, ∀ w ∈ s.splitOnP p, ∀ c ∈ w, p c = false := by
  intro s
  induction s with
  | nil =>
    intro w hw c hc
    simp [List.splitOnP_nil] at hw
    subst hw
    simp at hc
  | cons a s ih =>
    intro w hw c hc
    rw [List.splitOnP_cons] at hw
    by_cases ha : p a
    · rw [if_pos ha] at hw
      rcases List.mem_cons.mp hw with h1 | h1
      · subst h1; simp at hc
      · exact ih w h1 c hc
    · rw [if_neg ha] at hw
      rcases hsp : s.splitOnP p with _ | ⟨w0, rest⟩
      · exact absurd hsp (List.splitOnP_ne_nil p s)
      · rw [hsp] at hw
        simp only [List.modifyHead] at hw
        rcases List.mem_cons.mp hw with h1 | h1
        · subst h1
          rcases List.mem_cons.mp hc with h2 | h2
          · subst h2
            exact Bool.eq_false_iff.mpr ha
          · exact ih w0 (by rw [hsp]; exact List.mem_cons_self w0 rest) c h2
        · exact ih w (by rw [hsp]; exact List.mem_cons_of_mem w0 h1) c hc

theorem pyWords_sound (s : List Char) :
    ∀ w ∈ pyWords s, w ≠ [] ∧ ∀ c ∈ w, c.isWhitespace = false := by
  intro w hw
  unfold pyWords at hw
  rw [List.mem_filter] at hw
  refine ⟨by simpa using hw.2, ?_⟩
  exact splitOnP_chunks_clean _ s w hw.1

theorem pyWords_single {w : List Char} (hne : w ≠ [])
    (hcl : ∀ c ∈ w, c.isWhitespace = false) : pyWords w = [w] := by
  unfold pyWords
  rw [List.splitOnP_eq_single _ _ (fun x hx => by simp [hcl x hx])]
  simp [hne]

theorem pyWords_joinSpace :
    ∀ ws : List (List Char),
      (∀ w ∈ ws, w ≠ [] ∧ ∀ c ∈ w, c.isWhitespace = false) →
      pyWords (joinSpace ws) = ws := by
  intro ws
  induction ws with
  | nil => intro _; rfl
  | cons w ws ih =>
    intro h
    cases ws with
    | nil =>
      have hw := h w (List.mem_cons_self w [])
      exact pyWords_single hw.1 hw.2
    | cons w2 ws2 =>
      have hw := h w (List.mem_cons_self w _)
      have hrest : ∀ x ∈ w2 :: ws2, x ≠ [] ∧ ∀ c ∈ x, c.isWhitespace = false :=
        fun x hx => h x (List.mem_cons_of_mem w hx)
      show pyWords (w ++ ' ' :: joinSpace (w2 :: ws2)) = w :: w2 :: ws2
      unfold pyWords
      rw [List.splitOnP_first (fun c => c.isWhitespace) w
        (fun x hx => by simp [hw.2 x hx]) ' ' (by decide)]
      rw [List.filter_cons_of_pos (by simpa using hw.1)]
      have := ih hrest
      unfold pyWords at this
      rw [this]

theorem padLoop_eq :
    ∀ pad ws : List (List Char), padLoop ws pad = ws ++ pad.take (40 - ws.length) := by
  intro pad
  induction pad with
  | nil => intro ws; simp [padLoop]
  | cons p ps ih =>
    intro ws
    unfold padLoop
    by_cases h : ws.length < 40
    · rw [if_pos h, ih]
      have h40 : 40 - ws.length = (40 - (ws ++ [p]).length) + 1 := by
        simp only [List.length_append, List.length_cons, List.length_nil]
        omega
      rw [h40, List.take_succ_cons, List.append_assoc]
      rfl
    · rw [if_neg h]
      have h0 : 40 - ws.length = 0 := by omega
      simp [h0]

theorem padding_words_sound :
    ∀ w ∈ padding_words, w ≠ [] ∧ ∀ c ∈ w, c.isWhitespace = false := by
  decide

/-- C2: the validator's explanation normalization truncates inputs above 40
words to their first 40 words rejoined with single spaces, pads inputs
below 40 words from the fixed 9-word vocabulary, never produces more than
40 words, produces exactly 40 words whenever the input has at least 31
words, and returns an input of exactly 40 words unchanged. -/
theorem c2_explanation_word_count :
    ∀ e : List Char,
      (pyWords (normalizeExplanation e)).length ≤ 40
      ∧ (31 ≤ (pyWords e).length → (pyWords (normalizeExplanation e)).length = 40)
      ∧ ((pyWords e).length > 40 →
          normalizeExplanation e = joinSpace ((pyWords e).take 40))
      ∧ ((pyWords e).length < 40 →
          normalizeExplanation e =
            joinSpace ((pyWords e ++ padding_words.take (40 - (pyWords e).length)).take 40))
      ∧ ((pyWords e).length = 40 → normalizeExplanation e = e) := by
  intro e
  by_cases h40 : (pyWords e).length = 40
  · have hid : normalizeExplanation e = e := by
      simp [normalizeExplanation, h40]
    refine ⟨by rw [hid, h40], fun _ => by rw [hid, h40], fun hgt => by omega,
      fun hlt => by omega, fun _ => hid⟩
  · by_cases hgt : (pyWords e).length > 40
    · have hne : normalizeExplanation e = joinSpace ((pyWords e).take 40) := by
        simp [normalizeExplanation, h40, hgt]
      have hpw : pyWords (joinSpace ((pyWords e).take 40)) = (pyWords e).take 40 :=
        pyWords_joinSpace _ (fun w hw => pyWords_sound e w (List.take_subset _ _ hw))
      have hlen : (pyWords (normalizeExplanation e)).length = 40 := by
        rw [hne, hpw, List.length_take]
        omega
      exact ⟨by omega, fun _ => hlen, fun _ => hne, fun hlt => by omega, fun hx => by omega⟩
    · have hlt : (pyWords e).length < 40 := by omega
      have hne : normalizeExplanation e =
          joinSpace ((pyWords e ++ padding_words.take (40 - (pyWords e).length)).take 40) := by
        simp only [normalizeExplanation, if_neg (by omega : ¬ (pyWords e).length > 40),
          if_pos h40]
        rw [padLoop_eq]
      have hgood : ∀ w ∈ (pyWords e ++ padding_words.take (40 - (pyWords e).length)).take 40,
          w ≠ [] ∧ ∀ c ∈ w, c.isWhitespace = false := by
        intro w hw
        rcases List.mem_append.mp (List.take_subset _ _ hw) with h1 | h1
        · exact pyWords_sound e w h1
        · exact padding_words_sound w (List.take_subset _ _ h1)
      have hpw := pyWords_joinSpace _ hgood
      have hp9 : (padding_words : List (List Char)).length = 9 := rfl
      have hlen : (pyWords (normalizeExplanation e)).length =
          min ((pyWords e).length + min (40 - (pyWords e).length) 9) 40 := by
        rw [hne, hpw, List.length_take, List.length_append, List.length_take, hp9]
        omega
      refine ⟨by omega, fun h31 => by omega, fun h => by omega, fun _ => hne,
        fun h => by omega⟩

/-- Witness for C2 at a text of exactly 40 one-letter words. -/
theorem c2_explanation_word_count_witness :
    31 ≤ (pyWords exampleFortyWordText).length
    ∧ (pyWords (normalizeExplanation exampleFortyWordText)).length = 40
    ∧ normalizeExplanation exampleFortyWordText = exampleFortyWordText :=
  ⟨by decide, (c2_explanation_word_count exampleFortyWordText).2.1 (by decide),
   (c2_explanation_word_count exampleFortyWordText).2.2.2.2 (by decide)⟩

/-! ## C8: basic facts about strip, split and substring containment -/

theorem dropWhile_head_not {α : Type} (p : α → Bool) :
    ∀ l : List α, ∀ c ∈ (l.dropWhile p).head?, p c = false := by
  intro l
  induction l with
  | nil => intro c hc; simp at hc
  | cons a l ih =>
    intro c hc
    by_cases ha : p a
    · rw [List.dropWhile_cons_of_pos ha] at hc
      exact ih c hc
    · rw [List.dropWhile_cons_of_neg ha] at hc
      simp at hc
      subst hc
      exact Bool.eq_false_iff.mpr ha

theorem dropWhile_eq_self {α : Type} (p : α → Bool) (l : List α)
    (h : ∀ c ∈ l.head?, p c = false) : l.dropWhile p = l := by
  cases l with
  | nil => rfl
  | cons a l =>
    have ha : p a = false := h a (by simp)
    rw [List.dropWhile_cons_of_neg (by simp [ha])]

theorem pyStrip_nil : pyStrip [] = [] := rfl

theorem pyStrip_eq_self {l : List Char} (h1 : headNoWs l) (h2 : lastNoWs l) :
    pyStrip l = l := by
  unfold pyStrip
  rw [dropWhile_eq_self _ l h1]
  rw [dropWhile_eq_self _ l.reverse (by
    intro c hc
    rw [List.head?_reverse] at hc
    exact h2 c hc)]
  exact List.reverse_reverse l

theorem pyStrip_lastNoWs (l : List Char) : lastNoWs (pyStrip l) := by
  intro c hc
  unfold pyStrip at hc
  rw [List.getLast?_reverse] at hc
  exact dropWhile_head_not _ _ c hc

theorem pyStrip_headNoWs (l : List Char) : headNoWs (pyStrip l) := by
  intro c hc
  unfold pyStrip at hc
  rw [List.head?_reverse] at hc
  rcases hd : (l.dropWhile (fun c => c.isWhitespace)).reverse.dropWhile
      (fun c => c.isWhitespace) with _ | ⟨a, y⟩
  · rw [hd] at hc; simp at hc
  · rw [hd] at hc
    have hs : (a :: y) <:+ (l.dropWhile (fun c => c.isWhitespace)).reverse :=
      hd ▸ List.dropWhile_suffix _
    obtain ⟨u, hu⟩ := hs
    have hgl : ((l.dropWhile (fun c => c.isWhitespace)).reverse).getLast?
        = (a :: y).getLast? := by
      rw [← hu, List.getLast?_append]
      have : (a :: y).getLast?.isSome := by
        rw [List.getLast?_isSome]
        simp
      rw [Option.or_of_isSome this]
    rw [← hgl, List.getLast?_reverse] at hc
    exact dropWhile_head_not _ _ c hc

theorem pyStrip_within (l : List Char) : pyStrip l <:+: l := by
  have h1 : pyStrip l <+: l.dropWhile (fun c => c.isWhitespace) := by
    have hsuf : ((l.dropWhile (fun c => c.isWhitespace)).reverse.dropWhile
        (fun c => c.isWhitespace)) <:+ (l.dropWhile (fun c => c.isWhitespace)).reverse :=
      List.dropWhile_suffix _
    have h2 := List.reverse_prefix.mpr hsuf
    rw [List.reverse_reverse] at h2
    exact h2
  have h2 : l.dropWhile (fun c => c.isWhitespace) <:+ l := List.dropWhile_suffix _
  obtain ⟨v, hv⟩ := h1
  obtain ⟨u, hu⟩ := h2
  have hl : l = u ++ (pyStrip l ++ v) := by
    rw [hv, hu]
  exact ⟨u, v, by rw [List.append_assoc]; exact hl.symm⟩

theorem pyStrip_subset (l : List Char) : ∀ c ∈ pyStrip l, c ∈ l :=
  fun _ hc => (pyStrip_within l).sublist.subset hc

theorem splitNl_ne_nil (s : List Char) : splitNl s ≠ [] :=
  List.splitOnP_ne_nil _ s

theorem splitNl_cons_nl (s : List Char) : splitNl ('\n' :: s) = [] :: splitNl s := by
  simp [splitNl, List.splitOn, List.splitOnP_cons]

theorem splitNl_append_noNl {a : List Char} (h : noNl a) (s : List Char) :
    splitNl (a ++ s) = (splitNl s).modifyHead (fun x => a ++ x) := by
  induction a with
  | nil =>
    rcases hs : splitNl s with _ | ⟨p, ps⟩
    · exact absurd hs (splitNl_ne_nil s)
    · rw [List.nil_append, hs]
      simp [List.modifyHead]
  | cons c a ih =>
    have hc : c ≠ '\n' := h c (List.mem_cons_self c a)
    have ha : noNl a := fun x hx => h x (List.mem_cons_of_mem c hx)
    show splitNl (c :: (a ++ s)) = _
    simp only [splitNl, List.splitOn] at ih ⊢
    rw [List.splitOnP_cons, if_neg (by simp [hc]), ih ha]
    rw [List.modifyHead_modifyHead]
    rfl

theorem splitNl_single {l : List Char} (h : noNl l) : splitNl l = [l] := by
  simp only [splitNl, List.splitOn]
  exact List.splitOnP_eq_single _ _ (fun x hx => by simp [h x hx])

theorem splitNl_chunks_noNl (s : List Char) : ∀ p ∈ splitNl s, noNl p := by
  intro p hp c hc
  have := splitOnP_chunks_clean (fun x => x == '\n') s p hp c hc
  simpa using this

theorem splitOnP_pieces {α : Type} (p : α → Bool) :
    ∀ s : List α,
      (∀ x ∈ s.splitOnP p, x <:+: s)
      ∧ (∀ h tl, s.splitOnP p = h :: tl → h <+: s) := by
  intro s
  induction s with
  | nil =>
    constructor
    · intro x hx
      simp [List.splitOnP_nil] at hx
      simp [hx]
    · intro h tl hh
      simp [List.splitOnP_nil] at hh
      simp [hh.1]
  | cons a s ih =>
    by_cases ha : p a
    · constructor
      · intro x hx
        rw [List.splitOnP_cons, if_pos ha] at hx
        rcases List.mem_cons.mp hx with h1 | h1
        · simp [h1]
        · exact (ih.1 x h1).trans (List.infix_cons (List.infix_refl s))
      · intro h tl hh
        rw [List.splitOnP_cons, if_pos ha] at hh
        injection hh with h1 h2
        subst h1
        exact List.nil_prefix
    · rcases hsp : s.splitOnP p with _ | ⟨w0, rest⟩
      · exact absurd hsp (List.splitOnP_ne_nil p s)
      · have hh : (a :: s).splitOnP p = (a :: w0) :: rest := by
          rw [List.splitOnP_cons, if_neg ha, hsp]
          rfl
        have hw0 : w0 <+: s := ih.2 w0 rest hsp
        have hcons : a :: w0 <+: a :: s := List.cons_prefix_cons.mpr ⟨rfl, hw0⟩
        constructor
        · intro x hx
          rw [hh] at hx
          rcases List.mem_cons.mp hx with h1 | h1
          · subst h1
            exact hcons.isInfix
          · have hx2 : x <:+: s := ih.1 x (by rw [hsp]; exact List.mem_cons_of_mem w0 h1)
            exact hx2.trans (List.infix_cons (List.infix_refl s))
        · intro h tl hht
          rw [hh] at hht
          injection hht with h1 h2
          subst h1
          exact hcons

theorem hasSub_iff_within (pat : List Char) :
    ∀ s : List Char, hasSub pat s = true ↔ pat <:+: s := by
  intro s
  induction s with
  | nil =>
    show pat.isPrefixOf [] = true ↔ _
    rw [ List.isPrefixOf_iff_prefix, List.prefix_nil, List.infix_nil]
  | cons c rest ih =>
    show (pat.isPrefixOf (c :: rest) || hasSub pat rest) = true ↔ _
    rw [Bool.or_eq_true, List.isPrefixOf_iff_prefix, ih, List.infix_cons_iff]

theorem isSection_wrap {l : List Char} (h : isSection l = true) :
    isSection (wrap l) = true := by
  unfold isSection at h ⊢
  rw [List.any_eq_true] at h ⊢
  obtain ⟨sec, hsec, hsub⟩ := h
  refine ⟨sec, hsec, ?_⟩
  rw [hasSub_iff_within] at hsub ⊢
  obtain ⟨u, v, huv⟩ := hsub
  unfold wrap
  rw [List.map_append, List.map_append]
  refine ⟨(['=', '=', '=', ' '].map Char.toLower) ++ u,
    v ++ ([' ', '=', '=', '='].map Char.toLower), ?_⟩
  rw [← huv]
  simp [List.append_assoc]

theorem noDbl_of_infix {t q : List Char} (h : noDbl t) (hi : q <:+: t) : noDbl q := by
  obtain ⟨u, v, huv⟩ := hi
  unfold noDbl at h ⊢
  rw [← huv, List.append_assoc] at h
  exact (List.chain'_append.mp ((List.chain'_append.mp h).2.1)).1

/-! ## C8: the first whitespace substitution is the identity on structured text -/

theorem collapseBlank_nil : collapseBlank [] = [] := by
  simp [collapseBlank]

theorem collapseBlank_cons_not_nl {c : Char} (hc : c ≠ '\n') (s : List Char) :
    collapseBlank (c :: s) = c :: collapseBlank s := by
  rw [collapseBlank]
  simp [hc]

theorem collapseBlank_append_noNl {a : List Char} (h : noNl a) (s : List Char) :
    collapseBlank (a ++ s) = a ++ collapseBlank s := by
  induction a with
  | nil => simp
  | cons c a ih =>
    have hc : c ≠ '\n' := h c (List.mem_cons_self c a)
    have ha : noNl a := fun x hx => h x (List.mem_cons_of_mem c hx)
    rw [List.cons_append, collapseBlank_cons_not_nl hc, ih ha]
    rfl

theorem takeWhile_ws_nil_of_headNoWs {s : List Char} (h : headNoWs s) :
    s.takeWhile (fun c => c.isWhitespace) = [] := by
  cases s with
  | nil => rfl
  | cons a s2 =>
    have ha := h a (by simp)
    rw [List.takeWhile_cons_of_neg (by simp [ha])]

theorem blankMatch_none_of_headNoWs {s : List Char} (h : headNoWs s) :
    blankMatch s = none := by
  unfold blankMatch
  rw [takeWhile_ws_nil_of_headNoWs h]
  rfl

theorem collapseBlank_cons_nl {s : List Char} (h : headNoWs s) :
    collapseBlank ('\n' :: s) = '\n' :: collapseBlank s := by
  rw [collapseBlank, if_pos rfl]
  split
  · rename_i rest2 heq
    rw [blankMatch_none_of_headNoWs h] at heq
    cases heq
  · rfl

theorem blankMatch_cons_nl {s : List Char} (h : headNoWs s) :
    blankMatch ('\n' :: s) = some s := by
  unfold blankMatch
  rw [List.takeWhile_cons_of_pos (by decide), takeWhile_ws_nil_of_headNoWs h]
  rfl

theorem collapseBlank_two_nl {s : List Char} (h : headNoWs s) :
    collapseBlank ('\n' :: '\n' :: s) = '\n' :: '\n' :: collapseBlank s := by
  rw [collapseBlank, if_pos rfl]
  split
  · rename_i rest2 heq
    rw [blankMatch_cons_nl h] at heq
    injection heq with he
    rw [he]
  · rename_i heq
    rw [blankMatch_cons_nl h] at heq
    cases heq

theorem headNoWs_append_left {a b : List Char} (ha : headNoWs a) (hne : a ≠ []) :
    headNoWs (a ++ b) := by
  cases a with
  | nil => exact absurd rfl hne
  | cons x xs =>
    intro c hc
    simp only [List.cons_append, List.head?_cons, Option.mem_def, Option.some.injEq] at hc
    rw [← hc]
    exact ha x (by simp)

theorem wrap_ne_nil (l : List Char) : wrap l ≠ [] := by
  simp [wrap]

theorem wrap_noNl {l : List Char} (h : noNl l) : noNl (wrap l) := by
  intro c hc heq
  subst heq
  unfold wrap at hc
  rcases List.mem_append.mp hc with h1 | h1
  · rcases List.mem_append.mp h1 with h2 | h2
    · exact absurd h2 (by decide)
    · exact h '\n' h2 rfl
  · exact absurd h1 (by decide)

theorem wrap_headNoWs (l : List Char) : headNoWs (wrap l) := by
  intro c hc
  simp [wrap] at hc
  subst hc
  decide

theorem wrap_lastNoWs (l : List Char) : lastNoWs (wrap l) := by
  intro c hc
  unfold wrap at hc
  rw [List.getLast?_append] at hc
  simp at hc
  subst hc
  decide

theorem markLine_of_pos {l : List Char} (h : isSection l = true) :
    markLine l = '\n' :: wrap l := by
  simp [markLine, h]

theorem markLine_of_neg {l : List Char} (h : isSection l = false) :
    markLine l = l := by
  simp [markLine, h]

theorem collapseBlank_render :
    ∀ L : List (List Char), (∀ l ∈ L, cleanLine l) →
      collapseBlank ('\n' :: joinNl (L.map markLine)) = '\n' :: joinNl (L.map markLine)
      ∧ collapseBlank (joinNl (L.map markLine)) = joinNl (L.map markLine) := by
  intro L
  induction L with
  | nil =>
    intro _
    refine ⟨?_, by simp [joinNl, collapseBlank_nil]⟩
    show collapseBlank ['\n'] = ['\n']
    rw [show (['\n'] : List Char) = '\n' :: [] from rfl,
      collapseBlank_cons_nl (by intro c hc; simp at hc), collapseBlank_nil]
  | cons l L' ih =>
    intro h
    have hl := h l (List.mem_cons_self l L')
    obtain ⟨hne, hnl, hhead, hlast, hdbl⟩ := hl
    have hL' : ∀ x ∈ L', cleanLine x := fun x hx => h x (List.mem_cons_of_mem l hx)
    cases L' with
    | nil =>
      by_cases hs : isSection l
      · have he : joinNl ([l].map markLine) = '\n' :: wrap l := by
          simp [joinNl, markLine_of_pos hs]
        rw [he]
        have hwnil : collapseBlank (wrap l) = wrap l := by
          have := collapseBlank_append_noNl (wrap_noNl hnl) ([] : List Char)
          rw [List.append_nil, collapseBlank_nil, List.append_nil] at this
          exact this
        constructor
        · rw [collapseBlank_two_nl (wrap_headNoWs l), hwnil]
        · rw [collapseBlank_cons_nl (wrap_headNoWs l), hwnil]
      · have he : joinNl ([l].map markLine) = l := by
          simp [joinNl, markLine_of_neg (Bool.eq_false_iff.mpr hs)]
        rw [he]
        have hid : collapseBlank l = l := by
          have := collapseBlank_append_noNl hnl ([] : List Char)
          rw [List.append_nil, collapseBlank_nil, List.append_nil] at this
          exact this
        exact ⟨by rw [collapseBlank_cons_nl hhead, hid], hid⟩
    | cons l2 L'' =>
      have iht := ih hL'
      have hjoin : joinNl ((l :: l2 :: L'').map markLine)
          = markLine l ++ '\n' :: joinNl ((l2 :: L'').map markLine) := by
        simp [joinNl]
      rw [hjoin]
      by_cases hs : isSection l
      · rw [markLine_of_pos hs, List.cons_append]
        have hinner : headNoWs (wrap l ++ '\n' :: joinNl ((l2 :: L'').map markLine)) :=
          headNoWs_append_left (wrap_headNoWs l) (wrap_ne_nil l)
        have hmid : collapseBlank (wrap l ++ '\n' :: joinNl ((l2 :: L'').map markLine))
            = wrap l ++ '\n' :: joinNl ((l2 :: L'').map markLine) := by
          rw [collapseBlank_append_noNl (wrap_noNl hnl), iht.1]
        constructor
        · rw [collapseBlank_two_nl hinner, hmid]
        · rw [collapseBlank_cons_nl hinner, hmid]
      · rw [markLine_of_neg (Bool.eq_false_iff.mpr hs)]
        have hinner : headNoWs (l ++ '\n' :: joinNl ((l2 :: L'').map markLine)) :=
          headNoWs_append_left hhead hne
        have hmain : collapseBlank (l ++ '\n' :: joinNl ((l2 :: L'').map markLine))
            = l ++ '\n' :: joinNl ((l2 :: L'').map markLine) := by
          rw [collapseBlank_append_noNl hnl, iht.1]
        exact ⟨by rw [collapseBlank_cons_nl hinner, hmain], hmain⟩

/-! ## C8: the second whitespace substitution is the identity on structured text -/

theorem collapseSpaces_nil : collapseSpaces [] = [] := by
  simp [collapseSpaces]

theorem collapseSpaces_cons_sp {s : List Char} (h : ∀ c ∈ s.head?, c ≠ ' ') :
    collapseSpaces (' ' :: s) = ' ' :: collapseSpaces s := by
  rw [collapseSpaces, if_pos rfl]
  have hd : s.dropWhile (fun d => d = ' ') = s :=
    dropWhile_eq_self _ s (by intro c hc; simp [h c hc])
  rw [hd]

theorem collapseSpaces_cons_not_sp {c : Char} {s : List Char} (hc : c ≠ ' ') :
    collapseSpaces (c :: s) = c :: collapseSpaces s := by
  rw [collapseSpaces]
  simp [hc]

theorem collapseSpaces_id_of_noDbl {t : List Char} (h : noDbl t) :
    collapseSpaces t = t := by
  induction t with
  | nil => exact collapseSpaces_nil
  | cons c rest ih =>
    have hparts := List.chain'_cons'.mp h
    have hrest : noDbl rest := hparts.2
    by_cases hc : c = ' '
    · subst hc
      have hh : ∀ d ∈ rest.head?, d ≠ ' ' := by
        intro d hd heq
        exact hparts.1 d hd ⟨rfl, heq⟩
      rw [collapseSpaces_cons_sp hh, ih hrest]
    · rw [collapseSpaces_cons_not_sp hc, ih hrest]

theorem collapseSpaces_head (s : List Char) :
    (collapseSpaces s).head? = s.head? := by
  cases s with
  | nil => rw [collapseSpaces_nil]
  | cons c rest =>
    by_cases hc : c = ' '
    · subst hc
      rw [collapseSpaces, if_pos rfl]
      rfl
    · rw [collapseSpaces_cons_not_sp hc]
      rfl

theorem noDbl_collapseSpaces (s : List Char) : noDbl (collapseSpaces s) := by
  have key : ∀ n : Nat, ∀ s : List Char, s.length ≤ n → noDbl (collapseSpaces s) := by
    intro n
    induction n with
    | zero =>
      intro s hs
      have hn : s = [] := by
        cases s with
        | nil => rfl
        | cons a b => simp at hs
      rw [hn, collapseSpaces_nil]
      exact List.chain'_nil
    | succ n ihn =>
      intro s hs
      cases s with
      | nil =>
        rw [collapseSpaces_nil]
        exact List.chain'_nil
      | cons c rest =>
        simp only [List.length_cons] at hs
        by_cases hc : c = ' '
        · subst hc
          rw [collapseSpaces, if_pos rfl]
          have hlen : (rest.dropWhile (fun d => d = ' ')).length ≤ n := by
            have := (List.dropWhile_suffix (fun d => d = ' ') (l := rest)).sublist.length_le
            omega
          refine List.chain'_cons'.mpr ⟨?_, ihn _ hlen⟩
          intro y hy hpair
          rw [collapseSpaces_head] at hy
          have := dropWhile_head_not (fun d => d = ' ') rest y hy
          simp [hpair.2] at this
        · rw [collapseSpaces_cons_not_sp hc]
          refine List.chain'_cons'.mpr ⟨?_, ihn rest (by omega)⟩
          intro y hy hpair
          exact hc hpair.1
  exact key s.length s (Nat.le_refl _)

theorem chain_marker_left :
    List.Chain' (fun a b : Char => ¬(a = ' ' ∧ b = ' ')) ['=', '=', '=', ' '] := by
  refine List.chain'_cons.mpr ⟨?_, List.chain'_cons.mpr ⟨?_,
    List.chain'_cons.mpr ⟨?_, List.chain'_singleton _⟩⟩⟩ <;>
    (rintro ⟨h1, h2⟩
     first
     | exact absurd h1 (by decide)
     | exact absurd h2 (by decide))

theorem chain_marker_right :
    List.Chain' (fun a b : Char => ¬(a = ' ' ∧ b = ' ')) [' ', '=', '=', '='] := by
  refine List.chain'_cons.mpr ⟨?_, List.chain'_cons.mpr ⟨?_,
    List.chain'_cons.mpr ⟨?_, List.chain'_singleton _⟩⟩⟩ <;>
    (rintro ⟨h1, h2⟩
     first
     | exact absurd h1 (by decide)
     | exact absurd h2 (by decide))

theorem wrap_noDbl {l : List Char} (hne : l ≠ []) (hh : headNoWs l) (hl : lastNoWs l)
    (hd : noDbl l) : noDbl (wrap l) := by
  unfold wrap noDbl
  rw [List.append_assoc, List.chain'_append]
  refine ⟨chain_marker_left, ?_, ?_⟩
  · rw [List.chain'_append]
    refine ⟨hd, chain_marker_right, ?_⟩
    intro x hx y hy hpair
    rw [show ([' ', '=', '=', '='] : List Char).head? = some ' ' from rfl] at hy
    have := hl x hx
    simp [hpair.1] at this
  · intro x hx y hy hpair
    cases l with
    | nil => exact hne rfl
    | cons a l2 =>
      rw [List.cons_append, List.head?_cons] at hy
      simp only [Option.mem_def, Option.some.injEq] at hy
      have ha := hh a (by simp)
      rw [← hy] at hpair
      simp [hpair.2] at ha

theorem markLine_noDbl {l : List Char} (h : cleanLine l) : noDbl (markLine l) := by
  obtain ⟨hne, hnl, hhead, hlast, hdbl⟩ := h
  by_cases hs : isSection l
  · rw [markLine_of_pos hs]
    refine List.chain'_cons'.mpr ⟨?_, wrap_noDbl hne hhead hlast hdbl⟩
    intro y hy hpair
    cases hpair.1
  · rw [markLine_of_neg (Bool.eq_false_iff.mpr hs)]
    exact hdbl

theorem noDbl_render :
    ∀ L : List (List Char), (∀ l ∈ L, cleanLine l) →
      noDbl (joinNl (L.map markLine)) := by
  intro L
  induction L with
  | nil =>
    intro _
    exact List.chain'_nil
  | cons l L' ih =>
    intro h
    have hl := h l (List.mem_cons_self l L')
    have hL' : ∀ x ∈ L', cleanLine x := fun x hx => h x (List.mem_cons_of_mem l hx)
    cases L' with
    | nil => exact markLine_noDbl hl
    | cons l2 L'' =>
      have hjoin : joinNl ((l :: l2 :: L'').map markLine)
          = markLine l ++ '\n' :: joinNl ((l2 :: L'').map markLine) := by
        simp [joinNl]
      rw [hjoin]
      unfold noDbl
      rw [List.chain'_append]
      refine ⟨markLine_noDbl hl, ?_, ?_⟩
      · refine List.chain'_cons'.mpr ⟨?_, ih hL'⟩
        intro y hy hpair
        cases hpair.1
      · intro x hx y hy hpair
        simp only [List.head?_cons, Option.mem_def, Option.some.injEq] at hy
        rw [← hy] at hpair
        cases hpair.2

/-! ## C8: re-splitting structured text recovers the marked lines -/

theorem strip_filter_render :
    ∀ L : List (List Char), (∀ l ∈ L, cleanLine l) →
      ((splitNl (joinNl (L.map markLine))).map pyStrip).filter (fun l => l ≠ [])
        = L.map (fun l => if isSection l then wrap l else l) := by
  intro L
  induction L with
  | nil =>
    intro _
    rfl
  | cons l L' ih =>
    intro h
    obtain ⟨hne, hnl, hhead, hlast, hdbl⟩ := h l (List.mem_cons_self l L')
    have hL' : ∀ x ∈ L', cleanLine x := fun x hx => h x (List.mem_cons_of_mem l hx)
    cases L' with
    | nil =>
      by_cases hs : isSection l
      · rw [show joinNl ([l].map markLine) = '\n' :: wrap l from by
          simp [joinNl, markLine_of_pos hs]]
        rw [splitNl_cons_nl, splitNl_single (wrap_noNl hnl)]
        simp only [List.map_cons, List.map_nil, pyStrip_nil,
          pyStrip_eq_self (wrap_headNoWs l) (wrap_lastNoWs l), List.filter]
        simp [wrap_ne_nil, hs]
      · rw [show joinNl ([l].map markLine) = l from by
          simp [joinNl, markLine_of_neg (Bool.eq_false_iff.mpr hs)]]
        rw [splitNl_single hnl]
        simp only [List.map_cons, List.map_nil, pyStrip_eq_self hhead hlast, List.filter]
        simp [hne, hs]
    | cons l2 L'' =>
      have hjoin : joinNl ((l :: l2 :: L'').map markLine)
          = markLine l ++ '\n' :: joinNl ((l2 :: L'').map markLine) := by
        simp [joinNl]
      rw [hjoin]
      have ihr := ih hL'
      simp only [List.map_cons] at ihr
      by_cases hs : isSection l
      · rw [markLine_of_pos hs, List.cons_append, splitNl_cons_nl,
          splitNl_append_noNl (wrap_noNl hnl), splitNl_cons_nl]
        simp only [List.modifyHead, List.append_nil, List.map_cons, pyStrip_nil,
          pyStrip_eq_self (wrap_headNoWs l) (wrap_lastNoWs l), List.filter]
        simp only [show (decide (([] : List Char) ≠ [])) = false from rfl,
          show (decide (wrap l ≠ [])) = true from by simp [wrap_ne_nil]]
        rw [ihr]
        simp [hs]
      · rw [markLine_of_neg (Bool.eq_false_iff.mpr hs),
          splitNl_append_noNl hnl, splitNl_cons_nl]
        simp only [List.modifyHead, List.append_nil, List.map_cons,
          pyStrip_eq_self hhead hlast, List.filter]
        simp only [show (decide (l ≠ [])) = true from by simp [hne]]
        rw [ihr]
        simp [hs]

theorem coreLines_clean (t : List Char) : ∀ l ∈ coreLines t, cleanLine l := by
  intro l hl
  unfold coreLines at hl
  rw [List.mem_filter] at hl
  obtain ⟨hmem, hnef⟩ := hl
  rw [List.mem_map] at hmem
  obtain ⟨p, hp, hps⟩ := hmem
  have hne : l ≠ [] := by simpa using hnef
  have hpn : noNl p := splitNl_chunks_noNl _ p hp
  have hnl : noNl l := by
    intro c hc
    exact hpn c (by rw [← hps] at hc; exact pyStrip_subset p c hc)
  have hh : headNoWs l := by rw [← hps]; exact pyStrip_headNoWs p
  have hlw : lastNoWs l := by rw [← hps]; exact pyStrip_lastNoWs p
  have hsd : noDbl (collapseSpaces (collapseBlank t)) := noDbl_collapseSpaces _
  have hpi : p <:+: collapseSpaces (collapseBlank t) := by
    refine (splitOnP_pieces (fun x => x == '\n') (collapseSpaces (collapseBlank t))).1 p ?_
    unfold splitNl List.splitOn at hp
    exact hp
  have hdp : noDbl p := noDbl_of_infix hsd hpi
  have hdl : noDbl l := by rw [← hps]; exact noDbl_of_infix hdp (pyStrip_within p)
  exact ⟨hne, hnl, hh, hlw, hdl⟩

/-- C8: structuring an already-structured text is idempotent up to
section-marker duplication — the re-structured text consists of exactly the
same lines, where each line already wrapped as a section marker gains one
more marker layer and every other line is reproduced unchanged, so no
non-marker content is lost or altered. -/
theorem c8_structure_idempotent (t : List Char) :
    coreLines (clean_and_structure_text t)
      = (coreLines t).map (fun l => if isSection l then wrap l else l)
    ∧ clean_and_structure_text (clean_and_structure_text t)
      = joinNl ((coreLines t).map (fun l =>
          if isSection l then '\n' :: wrap (wrap l) else l)) := by
  have hclean := coreLines_clean t
  have h1 : coreLines (clean_and_structure_text t)
      = (coreLines t).map (fun l => if isSection l then wrap l else l) := by
    show ((splitNl (collapseSpaces (collapseBlank
        (joinNl ((coreLines t).map markLine))))).map pyStrip).filter (fun l => l ≠ []) = _
    rw [(collapseBlank_render (coreLines t) hclean).2,
      collapseSpaces_id_of_noDbl (noDbl_render (coreLines t) hclean)]
    exact strip_filter_render (coreLines t) hclean
  refine ⟨h1, ?_⟩
  show joinNl ((coreLines (clean_and_structure_text t)).map markLine) = _
  rw [h1, List.map_map]
  congr 1
  apply List.map_congr_left
  intro l _
  by_cases hs : isSection l
  · simp only [Function.comp, if_pos hs]
    rw [markLine_of_pos (isSection_wrap hs)]
  · simp only [Function.comp, if_neg hs]
    exact markLine_of_neg (Bool.eq_false_iff.mpr hs)
